import Mathlib

/-!
Verification of the paragraph-level AI translation pipeline of the
Simple-reader repository, as a shallow embedding in Lean 4.

The embedded code:
* `src/src/scripts/models/services/aiClient.ts` —
  `translateBatch`, `translateTextByParagraph` (batch planning loop,
  `processBatch` retry loop, concurrency-limited executor);
* the AI cache store (`src/unnamed/part_000`) —
  `saveSummary` / `saveTranslation` / `saveTitleTranslation` /
  `getCache` / `clearOldCache` over a module-level `Map` guarded by
  `cacheFilePath`;
* `src/src/components/article-ai.ts` —
  `calculateTextSimilarity` and the greedy matching core of
  `injectCachedTranslations`.

External collaborators (the HTTP completion endpoint, `JSON.parse`,
`Date.now()`, the DOM) are modelled as explicit oracle parameters; the
repository's own logic is translated statement by statement.
-/

namespace SimpleReader

/-! ## Data model (aiClient.ts) -/

/-- One entry of the preallocated result container of
`translateTextByParagraph`: `{ original: p, translated: "" }`. -/
structure TransResult where
  original : String
  translated : String
deriving Repr, DecidableEq

/-- A batch as built by the planning loop in `translateTextByParagraph`
(lines 288–291): parallel lists of original indices and texts. -/
structure Batch where
  indices : List Nat
  texts : List String
deriving Repr, DecidableEq

/-- JS `config.x || default`: `undefined` and `0` are falsy and select the
default. -/
def orDefault (o : Option Nat) (d : Nat) : Nat :=
  match o with
  | none => d
  | some n => if n = 0 then d else n

/-- The configuration fields of `AiConfig` consumed by
`translateTextByParagraph` (lines 283–285). -/
structure AiConfig where
  concurrency : Option Nat
  maxTextLengthPerRequest : Option Nat
  maxParagraphsPerRequest : Option Nat

/-! ## Batch planner (aiClient.ts lines 292–317)

The loop iterates paragraphs in order with index `i`; before adding a
paragraph it closes the current batch when the batch is non-empty and
either already holds `maxBatchSize` fragments or would exceed
`maxTextLen` characters; the paragraph is then always admitted into the
(possibly fresh) current batch.  The trailing non-empty batch is pushed
after the loop. -/

/-- Cumulative character count of a batch (`currentBatchLen` tracks the
sum of the lengths of the texts pushed into the current batch). -/
def batchCharLen (b : Batch) : Nat :=
  (b.texts.map String.length).sum

/-- The planning loop: remaining paragraphs, next index `i`, closed
batches so far, current batch and its running character count. -/
def planAux (maxBatchSize maxTextLen : Nat) :
    List String → Nat → List Batch → Batch → Nat → List Batch
  | [], _, batches, cur, _ =>
      if cur.indices.length > 0 then batches ++ [cur] else batches
  | p :: rest, i, batches, cur, curLen =>
      if cur.indices.length > 0 ∧
          (maxBatchSize ≤ cur.indices.length ∨ maxTextLen < curLen + p.length) then
        planAux maxBatchSize maxTextLen rest (i + 1) (batches ++ [cur])
          ⟨[i], [p]⟩ p.length
      else
        planAux maxBatchSize maxTextLen rest (i + 1) batches
          ⟨cur.indices ++ [i], cur.texts ++ [p]⟩ (curLen + p.length)

/-- `makeBatches paragraphs maxBatchSize maxTextLen`: the batch plan
produced by `translateTextByParagraph` lines 292–317. -/
def makeBatches (paragraphs : List String) (maxBatchSize maxTextLen : Nat) :
    List Batch :=
  planAux maxBatchSize maxTextLen paragraphs 0 [] ⟨[], []⟩ 0

/-! ## Failure-marker scan (aiClient.ts line 340)

`/(?:\[\s*翻译失败\s*\]|翻译失败|translation\s*failed)/i` applied with
`test` to every returned text.  `\s` is modelled by `Char.isWhitespace`;
the `i` flag only affects the Latin letters of the third alternative. -/

/-- The marker characters of the localized failure phrase. -/
def cnFailChars : List Char := ['翻', '译', '失', '败']

/-- Does one of the three regex alternatives match starting at the head
of `l`? -/
def markerAt (l : List Char) : Bool :=
  (match l with
   | '[' :: rest =>
     let r1 := rest.dropWhile Char.isWhitespace
     if cnFailChars.isPrefixOf r1 then
       match (r1.drop 4).dropWhile Char.isWhitespace with
       | ']' :: _ => true
       | _ => false
     else false
   | _ => false)
  || cnFailChars.isPrefixOf l
  || (let low := l.map Char.toLower
      ['t', 'r', 'a', 'n', 's', 'l', 'a', 't', 'i', 'o', 'n'].isPrefixOf low &&
        ['f', 'a', 'i', 'l', 'e', 'd'].isPrefixOf
          ((low.drop 11).dropWhile Char.isWhitespace))

/-- `RegExp.test`: some position of `s` starts a match. -/
def hasFailureMarker (s : String) : Bool :=
  s.data.tails.any markerAt

/-- JS `err.message?.includes("Abort")` (aiClient.ts line 360) applied
to the content error thrown at line 344, whose message is
`"Content verification failed: " + t` for the first marker-bearing
returned text `t`.  The fixed prefix contains no `A` at all, so no
occurrence of `Abort` can start in it or span the boundary: the check
holds exactly when `t` contains the (case-sensitive) substring
`Abort`. -/
def containsAbort (s : String) : Bool :=
  s.data.tails.any (List.isPrefixOf ['A', 'b', 'o', 'r', 't'])

/-! ## The per-batch retry loop `processBatch` (aiClient.ts lines 320–384)

One call to `translateBatch` inside the `try` block is abstracted by an
`Attempt`: it either throws (`fail abort`, where `abort` records whether
the catch at line 360 classifies the error as an abort — name
`AbortError` or message containing `Abort` — and rethrows it), or
returns a list of texts (`ret`).  The oracle `Nat → Attempt` gives the
outcome of the attempt made at each value of `retryCount`. -/

/-- Outcome of one `translateBatch` call as observed by `processBatch`. -/
inductive Attempt where
  | fail (abort : Bool)
  | ret (ts : List String)

/-- `results[i].translated = t` (line 351 / 374); JS array index
assignment at an in-range index, out-of-range is never exercised by the
code and is a no-op here. -/
def setTranslated : List TransResult → Nat → String → List TransResult
  | [], _, _ => []
  | r :: rs, 0, t => ⟨r.original, t⟩ :: rs
  | r :: rs, n + 1, t => r :: setTranslated rs n t

/-- The successful write-back loop (lines 349–355): for each batch
position, store the translated text at the fragment's original index.
(The `onParagraphTranslated` callback does not touch the container.) -/
def batchWrite (indices : List Nat) (ts : List String) (results : List TransResult) :
    List TransResult :=
  (indices.zip ts).foldl (fun res p => setTranslated res p.1 p.2) results

/-- The give-up write (lines 373–375): every fragment of the batch is
marked with the empty string. -/
def giveUpFold (indices : List Nat) (results : List TransResult) : List TransResult :=
  indices.foldl (fun res i => setTranslated res i "") results

/-- The body of the `try` block for one attempt (lines 330–357): a
thrown `translateBatch` error classified as abort is rethrown
(`abortErr`); any other throw is a caught retryable failure; a returned
list containing a failure marker (lines 339–346) throws the content
error `"Content verification failed: " + t` for the first
marker-bearing text `t`, which the catch at line 360 rethrows when its
message contains `Abort` — i.e. when `t` does — and otherwise retries;
otherwise the batch texts are written back and the attempt succeeds. -/
inductive AttemptOutcome where
  | success (newResults : List TransResult)
  | failure
  | abortErr

/-- One iteration of the `try`/`catch` at lines 330–362. -/
def attemptOnce (indices : List Nat) (att : Attempt) (results : List TransResult) :
    AttemptOutcome :=
  match att with
  | .fail true => .abortErr
  | .fail false => .failure
  | .ret ts =>
      match ts.find? hasFailureMarker with
      | some t => if containsAbort t then .abortErr else .failure
      | none => .success (batchWrite indices ts results)

/-- `maxRetries` at line 323. -/
def maxRetries : Nat := 20

/-- The `while (!success)` loop (lines 327–383), with the constant
`signal` already known unaborted (C4 models the aborted case at the
executor level).  On a caught failure `retryCount` is incremented; once
it exceeds `maxRetries` the batch degrades to empty translations and
the loop exits as success.  The loop makes at most `maxRetries + 1`
attempts, so the structural `fuel` (always called with
`maxRetries + 1`) never runs out; the second component counts the
`translateBatch` calls made. -/
def processBatchLoop (indices : List Nat) (oracle : Nat → Attempt) :
    Nat → Nat → List TransResult → Except Unit (List TransResult) × Nat
  | _, 0, results => (.ok results, 0)
  | retryCount, fuel + 1, results =>
      match attemptOnce indices (oracle retryCount) results with
      | .success r => (.ok r, 1)
      | .abortErr => (.error (), 1)
      | .failure =>
          if maxRetries < retryCount + 1 then
            (.ok (giveUpFold indices results), 1)
          else
            let rec' := processBatchLoop indices oracle (retryCount + 1) fuel results
            (rec'.1, rec'.2 + 1)

/-- `processBatch` (lines 320–384) on a run whose signal is never
aborted: the retry loop starting from `retryCount = 0`. -/
def processBatch (indices : List Nat) (oracle : Nat → Attempt)
    (results : List TransResult) : Except Unit (List TransResult) × Nat :=
  processBatchLoop indices oracle 0 (maxRetries + 1) results

/-! ## The executor `translateTextByParagraph` (aiClient.ts lines 265–410)

The async executor multiplexes batch tasks on one event loop; the tasks
write to disjoint index sets of `results`, so for a constant abort
signal the final container (and thrown-vs-returned outcome) equals that
of processing the batches in plan order, which is how the run is
embedded.  The per-batch oracle `Nat → Nat → Attempt` maps (position of
the batch in the plan, retryCount) to the outcome of that
`translateBatch` call.  The second component counts `translateBatch`
calls — zero calls means zero network requests. -/

/-- Sequential embedding of the batch tasks: thread the result container
through `processBatch` for each planned batch; an abort error rejects
the whole run (`Promise.all` at line 407 rejects). -/
def runBatches (oracle : Nat → Nat → Attempt) :
    List Batch → Nat → List TransResult → Except Unit (List TransResult) × Nat
  | [], _, results => (.ok results, 0)
  | b :: rest, bi, results =>
      match processBatch b.indices (oracle bi) results with
      | (.ok r, c) =>
          let t := runBatches oracle rest (bi + 1) r
          (t.1, c + t.2)
      | (.error e, c) => (.error e, c)

/-- `translateTextByParagraph` (lines 265–410) with a constant abort
signal: preallocate `results` (lines 273–276), read the config defaults
(lines 283–285), build the plan (lines 292–317) and run it.  When the
signal is already aborted the admission loop at line 389 breaks before
any batch starts, `Promise.all []` resolves, and the preallocated
container is returned with zero network calls.  (Language detection at
line 280 only selects the target language passed to `translateBatch`
and is absorbed by the oracle.) -/
def translateTextByParagraph (config : AiConfig) (paragraphs : List String)
    (aborted : Bool) (oracle : Nat → Nat → Attempt) :
    Except Unit (List TransResult) × Nat :=
  let results := paragraphs.map fun p => TransResult.mk p ""
  let maxBatchSize := orDefault config.maxParagraphsPerRequest 1
  let maxTextLen := orDefault config.maxTextLengthPerRequest 1500
  let batches := makeBatches paragraphs maxBatchSize maxTextLen
  if aborted then (.ok results, 0)
  else runBatches oracle batches 0 results

/-! ## `translateBatch` (aiClient.ts lines 198–256)

The external collaborators of `translateBatch` are gathered in a
`CompletionOracle`: the raw text of the one bulk `chatCompletion`
response, the responses of the sequential single-fragment
`translateText` calls (indexed by call position and carrying the text
sent), and `JSON.parse` (a JS builtin; `none` models a parse throw).
Only the structural code of `translateBatch` itself is embedded. -/

/-- A parsed JSON value as produced by `JSON.parse`. -/
inductive JsValue where
  | jstr (s : String)
  | jnum (n : Int)
  | jbool (b : Bool)
  | jnull
  | jarr (elems : List JsValue)
  | jobj

/-- JS `String(s)` coercion applied at line 246 to each parsed element.
(For an array JS joins the coerced elements with commas; the element
recursion is irrelevant to every claim and elided.) -/
def jsToString : JsValue → String
  | .jstr s => s
  | .jnum n => toString n
  | .jbool b => if b then "true" else "false"
  | .jnull => "null"
  | .jarr _ => ""
  | .jobj => "[object Object]"

/-- Three backticks, and three backticks followed by `json`. -/
def fenceStr : String := "\x60\x60\x60"

/-- The fenced-JSON opener stripped at line 234. -/
def fenceJsonStr : String := "\x60\x60\x60json"

/-- The code-fence cleanup at lines 233–237 (`trim`, strip a leading
fence, strip a trailing fence, `trim`). -/
def cleanResponse (raw : String) : String :=
  let c := raw.trim
  let c := if c.startsWith fenceJsonStr then c.drop 7 else c
  let c := if c.startsWith fenceStr then c.drop 3 else c
  let c := if c.endsWith fenceStr then c.dropRight 3 else c
  c.trim

/-- External collaborators of one `translateBatch` call. -/
structure CompletionOracle where
  bulk : String
  single : Nat → String → String
  parse : String → Option JsValue

/-- `translateBatch` (lines 198–256): empty input short-circuits;
a singleton input is one direct `translateText` call; otherwise the one
bulk response is cleaned and parsed, accepted only as an array of
exactly the input length (line 241–245), and every other outcome falls
back to one sequential `translateText` call per text (lines 247–254). -/
def translateBatch (texts : List String) (o : CompletionOracle) : List String :=
  match texts with
  | [] => []
  | [t] => [o.single 0 t]
  | _ =>
      let fallback := texts.enum.map fun it => o.single it.1 it.2
      match o.parse (cleanResponse o.bulk) with
      | some (.jarr xs) =>
          if xs.length = texts.length then xs.map jsToString else fallback
      | _ => fallback

/-! ## The concurrency window (aiClient.ts lines 386–407)

The admission loop admits the next batch only after `Promise.race`
returns and the finished task's self-removing continuation (lines
399–402) has spliced it out of `activePromises`, i.e. only while the
active set holds fewer than `concurrency` tasks; a finishing task
removes itself.  These two event kinds form a labelled transition
system over the scheduler state; batches are identified by their plan
position. -/

/-- Scheduler state: batches not yet admitted (in plan order), the
active set `activePromises`, and the finished batches. -/
structure ExecState where
  queued : List Nat
  active : List Nat
  finished : List Nat
deriving Repr, DecidableEq

/-- Initial state for a plan of `numBatches` batches. -/
def initExecState (numBatches : Nat) : ExecState :=
  ⟨List.range numBatches, [], []⟩

/-- One scheduler event: `admitNext` pushes the next queued batch into the
active set (only when the window has room, lines 392–397 and 403);
`finish` is the self-removal splice (lines 399–402) of a completed
in-flight task. -/
inductive ExecStep (concurrency : Nat) : ExecState → ExecState → Prop where
  | admitNext (b : Nat) (rest : List Nat) (s : ExecState)
      (hq : s.queued = b :: rest)
      (hlt : s.active.length < concurrency) :
      ExecStep concurrency s ⟨rest, s.active ++ [b], s.finished⟩
  | finish (b : Nat) (s : ExecState)
      (hb : b ∈ s.active) :
      ExecStep concurrency s ⟨s.queued, s.active.erase b, b :: s.finished⟩

/-- Reachability of a scheduler state during one run. -/
def ExecReachable (concurrency numBatches : Nat) (s : ExecState) : Prop :=
  Relation.ReflTransGen (ExecStep concurrency) (initExecState numBatches) s

/-! ## Cache store (src/unnamed/part_000)

Module state: `cacheFilePath` (set by `initDB`, `none` before) and the
insertion-ordered `Map` `cacheData`.  `fs.writeFileSync` inside
`saveCache` is modelled by the `diskWrites` counter; `Date.now()` is an
explicit `now` argument. -/

/-- `AICacheEntry` (part_000 lines 9–15). -/
structure AICacheEntry where
  itemId : String
  summary : Option String
  translation : Option String
  titleTranslation : Option String
  createdAt : Nat
deriving Repr, DecidableEq

/-- The module-level mutable state of part_000 (lines 6–7) plus the
count of backing-file writes. -/
structure CacheState where
  cacheFilePath : Option String
  cacheData : List (String × AICacheEntry)
  diskWrites : Nat
deriving Repr, DecidableEq

/-- JS `Map.get`. -/
def mapGet : List (String × AICacheEntry) → String → Option AICacheEntry
  | [], _ => none
  | kv :: rest, k => if kv.1 = k then some kv.2 else mapGet rest k

/-- JS `Map.set`: update in place preserving insertion order, append a
new key at the end. -/
def mapSet : List (String × AICacheEntry) → String → AICacheEntry →
    List (String × AICacheEntry)
  | [], k, v => [(k, v)]
  | kv :: rest, k, v =>
      if kv.1 = k then (k, v) :: rest else kv :: mapSet rest k v

/-- `saveCache` (lines 38–47): flush the whole map to the backing file
when a path is set. -/
def saveCache (st : CacheState) : CacheState :=
  match st.cacheFilePath with
  | none => st
  | some _ => { st with diskWrites := st.diskWrites + 1 }

/-- `saveSummary` (lines 49–61). -/
def saveSummary (st : CacheState) (itemId summary : String) (now : Nat) :
    CacheState :=
  match st.cacheFilePath with
  | none => st
  | some _ =>
      let entry := (mapGet st.cacheData itemId).getD ⟨itemId, none, none, none, now⟩
      let entry := { entry with summary := some summary, createdAt := now }
      saveCache { st with cacheData := mapSet st.cacheData itemId entry }

/-- `saveTranslation` (lines 63–75). -/
def saveTranslation (st : CacheState) (itemId translation : String) (now : Nat) :
    CacheState :=
  match st.cacheFilePath with
  | none => st
  | some _ =>
      let entry := (mapGet st.cacheData itemId).getD ⟨itemId, none, none, none, now⟩
      let entry := { entry with translation := some translation, createdAt := now }
      saveCache { st with cacheData := mapSet st.cacheData itemId entry }

/-- `saveTitleTranslation` (lines 77–89). -/
def saveTitleTranslation (st : CacheState) (itemId titleTranslation : String)
    (now : Nat) : CacheState :=
  match st.cacheFilePath with
  | none => st
  | some _ =>
      let entry := (mapGet st.cacheData itemId).getD ⟨itemId, none, none, none, now⟩
      let entry := { entry with titleTranslation := some titleTranslation,
                                createdAt := now }
      saveCache { st with cacheData := mapSet st.cacheData itemId entry }

/-- `getCache` (lines 91–100). -/
def getCache (st : CacheState) (itemId : String) : Option AICacheEntry :=
  match st.cacheFilePath with
  | none => none
  | some _ => mapGet st.cacheData itemId

/-- `clearOldCache` (lines 102–116): delete every entry whose
`createdAt` is strictly below `now − daysToKeep·86400000` and flush. -/
def clearOldCache (st : CacheState) (daysToKeep : Nat) (now : Nat) : CacheState :=
  match st.cacheFilePath with
  | none => st
  | some _ =>
      let cutoff : Int := (now : Int) - (daysToKeep : Int) * 86400000
      saveCache { st with
        cacheData := st.cacheData.filter fun kv => !((kv.2.createdAt : Int) < cutoff) }

/-! ## Paragraph realignment matcher (article-ai.ts lines 383–402, 692–705)

`calculateTextSimilarity` computes in JS doubles; every score is a
quotient `matches / len` with `len ≤ 100`, exactly representable
comparisons, so the scores are embedded as rationals.  The greedy
matching loop of `injectCachedTranslations` is embedded as a pure
function from the cached pairs and the freshly extracted texts to the
list of `(pair position, fragment index, score)` assignments (the
injection scripts it drives are display-surface effects). -/

/-- `/<[^>]*>/g` replacement by the empty string, one match at a time:
from an unconsumed `<`, delete through the next `>` when one exists;
a `<` with no later `>` starts no match and the tail is kept verbatim.
The structural `fuel` (one unit per consumed character, so the data
length suffices) keeps the recursion kernel-reducible. -/
def stripTagsGo : Nat → List Char → List Char
  | 0, l => l
  | _, [] => []
  | fuel + 1, c :: rest =>
      if c = '<' then
        if rest.contains '>' then
          stripTagsGo fuel ((rest.dropWhile fun d => !(d = '>')).tail)
        else c :: rest
      else c :: stripTagsGo fuel rest

/-- `strip` at line 693: `(s || "").replace(/<[^>]*>/g, "")`. -/
def stripTags (s : String) : String :=
  ⟨stripTagsGo s.data.length s.data⟩

/-- The matching loop of `calculateTextSimilarity` (lines 699–702):
number of positions below `len` where the two stripped texts agree. -/
def countMatches : List Char → List Char → Nat
  | a :: as, b :: bs => (if a = b then 1 else 0) + countMatches as bs
  | _, _ => 0

/-- `calculateTextSimilarity` (lines 692–705). -/
def calculateTextSimilarity (text1 text2 : String) : ℚ :=
  let a := (stripTags text1).data
  let b := (stripTags text2).data
  let len := min (min a.length b.length) 100
  if len = 0 then 0
  else (countMatches (a.take len) (b.take len) : ℚ) / (len : ℚ)

/-- One iteration of the inner candidate scan (lines 388–395): skip a
used fragment, otherwise score it and keep it when it strictly improves
on the best score so far. -/
def bestStep (texts : List String) (used : List Nat) (original : String)
    (best : Option Nat × ℚ) (i : Nat) : Option Nat × ℚ :=
  if used.contains i then best
  else if best.2 < calculateTextSimilarity (texts.getD i "") original then
    (some i, calculateTextSimilarity (texts.getD i "") original)
  else best

/-- The inner candidate scan (lines 386–395): fold over the fragment
indices; `bestIdx = -1` is `none`, `bestScore` starts at `0`. -/
def bestCandidate (texts : List String) (used : List Nat) (original : String) :
    Option Nat × ℚ :=
  (List.range texts.length).foldl (bestStep texts used original) (none, 0)

/-- The outer loop over the cached pairs (lines 384–402): thread the
used set and record an assignment when `bestIdx ≥ 0` and
`bestScore ≥ 0.35`. -/
def matchGo (texts : List String) :
    List TransResult → Nat → List Nat → List (Nat × Nat × ℚ) →
      List (Nat × Nat × ℚ) × List Nat
  | [], _, used, assigns => (assigns, used)
  | t :: rest, pi, used, assigns =>
      match bestCandidate texts used t.original with
      | (some bi, bs) =>
          if (35 : ℚ) / 100 ≤ bs then
            matchGo texts rest (pi + 1) (used ++ [bi]) (assigns ++ [(pi, bi, bs)])
          else matchGo texts rest (pi + 1) used assigns
      | (none, _) => matchGo texts rest (pi + 1) used assigns

/-- The pure matching core of `injectCachedTranslations`: which cached
pair is re-associated with which fresh fragment, at which score. -/
def matchPairs (pairs : List TransResult) (texts : List String) :
    List (Nat × Nat × ℚ) :=
  (matchGo texts pairs 0 [] []).1

/-! ## Batch-planner lemmas -/

/-- The planning loop emits the index sequence of the remaining
paragraphs, in order, after the already-closed batches and the current
batch. -/
lemma planAux_flatMap_indices (m l : Nat) :
    ∀ (rest : List String) (i : Nat) (batches : List Batch) (cur : Batch)
      (curLen : Nat),
      (planAux m l rest i batches cur curLen).flatMap Batch.indices
        = batches.flatMap Batch.indices ++ cur.indices ++ List.range' i rest.length := by
  intro rest
  induction rest with
  | nil =>
      intro i batches cur curLen
      by_cases hc : cur.indices.length > 0
      · simp [planAux, hc]
      · have hnil : cur.indices = [] := by
          simpa using Nat.le_antisymm (Nat.le_of_not_lt hc) (Nat.zero_le _)
        simp [planAux, hc, hnil]
  | cons p rest ih =>
      intro i batches cur curLen
      rw [planAux]
      by_cases hc : cur.indices.length > 0 ∧
          (m ≤ cur.indices.length ∨ l < curLen + p.length)
      · simp only [if_pos hc, ih]
        simp [List.range'_succ, List.length_cons]
      · simp only [if_neg hc, ih]
        simp [List.range'_succ, List.length_cons]

/-- The planner invariant: every emitted batch respects the count cap,
and respects the character cap unless it is a singleton. -/
lemma planAux_bounds (m l : Nat) (hm : 1 ≤ m) :
    ∀ (rest : List String) (i : Nat) (batches : List Batch) (cur : Batch)
      (curLen : Nat),
      (∀ b ∈ batches,
          b.indices.length ≤ m ∧ (batchCharLen b ≤ l ∨ b.indices.length = 1)) →
      curLen = batchCharLen cur →
      cur.indices.length = cur.texts.length →
      cur.indices.length ≤ m →
      (cur.indices.length ≤ 1 ∨ batchCharLen cur ≤ l) →
      ∀ b ∈ planAux m l rest i batches cur curLen,
        b.indices.length ≤ m ∧ (batchCharLen b ≤ l ∨ b.indices.length = 1) := by
  intro rest
  induction rest with
  | nil =>
      intro i batches cur curLen hB hlen _hpar hcnt hchar
      by_cases hc : cur.indices.length > 0
      · simp only [planAux, if_pos hc]
        intro b hb
        rcases List.mem_append.mp hb with hb' | hb'
        · exact hB b hb'
        · rcases List.mem_singleton.mp hb' with rfl
          refine ⟨hcnt, ?_⟩
          rcases hchar with h1 | h1
          · exact Or.inr (Nat.le_antisymm h1 hc)
          · exact Or.inl h1
      · simp only [planAux, if_neg hc]
        exact hB
  | cons p rest ih =>
      intro i batches cur curLen hB hlen hpar hcnt hchar
      rw [planAux]
      by_cases hc : cur.indices.length > 0 ∧
          (m ≤ cur.indices.length ∨ l < curLen + p.length)
      · simp only [if_pos hc]
        refine ih (i + 1) (batches ++ [cur]) ⟨[i], [p]⟩ p.length ?_ ?_ ?_ ?_ ?_
        · intro b hb
          rcases List.mem_append.mp hb with hb' | hb'
          · exact hB b hb'
          · rcases List.mem_singleton.mp hb' with rfl
            refine ⟨hcnt, ?_⟩
            rcases hchar with h1 | h1
            · exact Or.inr (Nat.le_antisymm h1 hc.1)
            · exact Or.inl h1
        · simp [batchCharLen]
        · simp
        · simpa using hm
        · simp
      · simp only [if_neg hc]
        push_neg at hc
        refine ih (i + 1) batches ⟨cur.indices ++ [i], cur.texts ++ [p]⟩
          (curLen + p.length) hB ?_ ?_ ?_ ?_
        · simp [batchCharLen, hlen]
        · simp [hpar]
        · by_cases h0 : cur.indices.length > 0
          · have := (hc h0).1
            simp only [List.length_append, List.length_cons, List.length_nil]
            omega
          · have : cur.indices.length = 0 := Nat.le_antisymm (Nat.le_of_not_lt h0) (Nat.zero_le _)
            simp only [List.length_append, List.length_cons, List.length_nil]
            omega
        · by_cases h0 : cur.indices.length > 0
          · have h2 := (hc h0).2
            right
            have hcl : batchCharLen ⟨cur.indices ++ [i], cur.texts ++ [p]⟩
                = batchCharLen cur + p.length := by
              simp [batchCharLen]
            rw [hcl, ← hlen]
            omega
          · have h00 : cur.indices.length = 0 :=
              Nat.le_antisymm (Nat.le_of_not_lt h0) (Nat.zero_le _)
            left
            simp only [List.length_append, List.length_cons, List.length_nil]
            omega

/-! ## Result-container shape lemmas -/

lemma setTranslated_length (rs : List TransResult) (n : Nat) (t : String) :
    (setTranslated rs n t).length = rs.length := by
  induction rs generalizing n with
  | nil => simp [setTranslated]
  | cons r tl ih =>
      cases n with
      | zero => simp [setTranslated]
      | succ n => simp [setTranslated, ih]

lemma setTranslated_get?_original (rs : List TransResult) (n : Nat) (t : String)
    (j : Nat) :
    ((setTranslated rs n t).get? j).map TransResult.original
      = (rs.get? j).map TransResult.original := by
  induction rs generalizing n j with
  | nil => simp [setTranslated]
  | cons r tl ih =>
      cases n with
      | zero =>
          cases j with
          | zero => simp [setTranslated]
          | succ j => simp [setTranslated]
      | succ n =>
          cases j with
          | zero => simp [setTranslated]
          | succ j => simpa [setTranslated] using ih n j

lemma setTranslated_get?_self (rs : List TransResult) (n : Nat) (t : String) :
    (setTranslated rs n t).get? n
      = (rs.get? n).map fun r => TransResult.mk r.original t := by
  induction rs generalizing n with
  | nil => simp [setTranslated]
  | cons r tl ih =>
      cases n with
      | zero => simp [setTranslated]
      | succ n => simpa [setTranslated] using ih n

lemma setTranslated_get?_ne (rs : List TransResult) (n : Nat) (t : String)
    (j : Nat) (h : j ≠ n) :
    (setTranslated rs n t).get? j = rs.get? j := by
  induction rs generalizing n j with
  | nil => simp [setTranslated]
  | cons r tl ih =>
      cases n with
      | zero =>
          cases j with
          | zero => exact absurd rfl h
          | succ j => simp [setTranslated]
      | succ n =>
          cases j with
          | zero => simp [setTranslated]
          | succ j => simpa [setTranslated] using ih n j (by omega)

/-- Shape preservation: same length and the same `original` at every
position. -/
def SameShape (r₀ r : List TransResult) : Prop :=
  r.length = r₀.length ∧
    ∀ j, (r.get? j).map TransResult.original = (r₀.get? j).map TransResult.original

lemma SameShape.refl (r : List TransResult) : SameShape r r := ⟨rfl, fun _ => rfl⟩

lemma SameShape.trans {a b c : List TransResult}
    (h1 : SameShape a b) (h2 : SameShape b c) : SameShape a c :=
  ⟨h2.1.trans h1.1, fun j => (h2.2 j).trans (h1.2 j)⟩

lemma sameShape_setTranslated (rs : List TransResult) (n : Nat) (t : String) :
    SameShape rs (setTranslated rs n t) :=
  ⟨setTranslated_length rs n t, fun j => setTranslated_get?_original rs n t j⟩

lemma sameShape_batchWrite (indices : List Nat) (ts : List String)
    (results : List TransResult) :
    SameShape results (batchWrite indices ts results) := by
  rw [batchWrite]
  generalize indices.zip ts = l
  induction l generalizing results with
  | nil => exact SameShape.refl _
  | cons p tl ih =>
      exact SameShape.trans (sameShape_setTranslated results p.1 p.2) (ih _)

lemma sameShape_giveUpFold (indices : List Nat) (results : List TransResult) :
    SameShape results (giveUpFold indices results) := by
  rw [giveUpFold]
  induction indices generalizing results with
  | nil => exact SameShape.refl _
  | cons i tl ih =>
      exact SameShape.trans (sameShape_setTranslated results i "") (ih _)

lemma sameShape_attemptOnce (indices : List Nat) (att : Attempt)
    (results newResults : List TransResult)
    (h : attemptOnce indices att results = .success newResults) :
    SameShape results newResults := by
  cases att with
  | fail ab => cases ab <;> simp [attemptOnce] at h
  | ret ts =>
      rw [attemptOnce] at h
      cases hf : ts.find? hasFailureMarker with
      | some t =>
          rw [hf] at h
          by_cases hab : containsAbort t = true <;> simp [hab] at h
      | none =>
          rw [hf] at h
          cases h
          exact sameShape_batchWrite indices ts results

lemma sameShape_processBatchLoop (indices : List Nat) (oracle : Nat → Attempt)
    (retryCount fuel : Nat) (results r : List TransResult)
    (h : (processBatchLoop indices oracle retryCount fuel results).1 = .ok r) :
    SameShape results r := by
  induction fuel generalizing retryCount results with
  | zero =>
      simp only [processBatchLoop] at h
      cases h
      exact SameShape.refl _
  | succ fuel ih =>
      rw [processBatchLoop] at h
      cases hatt : attemptOnce indices (oracle retryCount) results with
      | success nr =>
          rw [hatt] at h
          cases h
          exact sameShape_attemptOnce _ _ _ _ hatt
      | failure =>
          rw [hatt] at h
          by_cases hgu : maxRetries < retryCount + 1
          · simp only [if_pos hgu] at h
            cases h
            exact sameShape_giveUpFold indices results
          · simp only [if_neg hgu] at h
            exact ih (retryCount + 1) results h
      | abortErr =>
          rw [hatt] at h
          cases h

lemma sameShape_runBatches (oracle : Nat → Nat → Attempt) (batches : List Batch)
    (bi : Nat) (results r : List TransResult)
    (h : (runBatches oracle batches bi results).1 = .ok r) :
    SameShape results r := by
  induction batches generalizing bi results with
  | nil =>
      simp only [runBatches] at h
      cases h
      exact SameShape.refl _
  | cons b rest ih =>
      rw [runBatches] at h
      cases hpb : processBatch b.indices (oracle bi) results with
      | mk res c =>
          cases res with
          | ok r1 =>
              rw [hpb] at h
              simp only at h
              have hloop : (processBatchLoop b.indices (oracle bi) 0 (maxRetries + 1)
                  results).1 = .ok r1 := by
                have := congrArg Prod.fst hpb
                simpa [processBatch] using this
              exact SameShape.trans
                (sameShape_processBatchLoop _ _ _ _ _ _ hloop)
                (ih (bi + 1) r1 h)
          | error e =>
              rw [hpb] at h
              simp at h

/-! ## Retry-exhaustion lemmas -/

/-- Non-abort failures: the `catch` at lines 358–381 neither rethrows
nor succeeds on these attempts — a thrown error not classified as
abort, or a returned batch whose first marker-bearing text does not
contain `Abort` (line 360 would otherwise rethrow the content error,
whose message embeds that text). -/
def isNonAbortFailure : Attempt → Bool
  | .fail true => false
  | .fail false => true
  | .ret ts =>
      match ts.find? hasFailureMarker with
      | some t => !containsAbort t
      | none => false

lemma attemptOnce_of_nonAbortFailure (indices : List Nat) (att : Attempt)
    (results : List TransResult) (h : isNonAbortFailure att = true) :
    attemptOnce indices att results = .failure := by
  cases att with
  | fail ab => cases ab <;> simp_all [isNonAbortFailure, attemptOnce]
  | ret ts =>
      rw [isNonAbortFailure] at h
      rw [attemptOnce]
      cases hf : ts.find? hasFailureMarker with
      | some t =>
          rw [hf] at h
          simp only [Bool.not_eq_true'] at h
          simp [h]
      | none =>
          rw [hf] at h
          cases h

lemma processBatchLoop_allFail (indices : List Nat) (oracle : Nat → Attempt)
    (h : ∀ k, isNonAbortFailure (oracle k) = true) :
    ∀ (fuel retryCount : Nat) (results : List TransResult),
      retryCount + (fuel + 1) = maxRetries + 1 →
      processBatchLoop indices oracle retryCount (fuel + 1) results
        = (.ok (giveUpFold indices results), fuel + 1) := by
  intro fuel
  induction fuel with
  | zero =>
      intro retryCount results hrc
      rw [processBatchLoop,
        attemptOnce_of_nonAbortFailure indices (oracle retryCount) results (h _)]
      have : maxRetries < retryCount + 1 := by omega
      simp [this]
  | succ fuel ih =>
      intro retryCount results hrc
      rw [processBatchLoop,
        attemptOnce_of_nonAbortFailure indices (oracle retryCount) results (h _)]
      have hlt : ¬ maxRetries < retryCount + 1 := by
        simp only [maxRetries] at hrc ⊢
        omega
      simp only [if_neg hlt]
      rw [ih (retryCount + 1) results (by omega)]

lemma processBatch_allFail (indices : List Nat) (oracle : Nat → Attempt)
    (results : List TransResult)
    (h : ∀ k, isNonAbortFailure (oracle k) = true) :
    processBatch indices oracle results
      = (.ok (giveUpFold indices results), maxRetries + 1) := by
  rw [processBatch, processBatchLoop_allFail indices oracle h maxRetries 0 results
    (by omega)]

/-- The give-up write leaves positions outside the batch untouched. -/
lemma giveUpFold_get?_notMem (l : List Nat) (results : List TransResult) (i : Nat)
    (h : i ∉ l) :
    (giveUpFold l results).get? i = results.get? i := by
  rw [giveUpFold]
  induction l generalizing results with
  | nil => rfl
  | cons j tl ih =>
      simp only [List.foldl_cons]
      rw [ih _ (fun hm => h (List.mem_cons_of_mem j hm))]
      exact setTranslated_get?_ne results j "" i (fun hij => h (hij ▸ List.mem_cons_self j tl))

/-- Every in-range fragment of the batch ends with the empty translated
string after the give-up write. -/
lemma giveUpFold_get?_mem (l : List Nat) (results : List TransResult) (i : Nat)
    (hmem : i ∈ l) (hlt : i < results.length) :
    ((giveUpFold l results).get? i).map TransResult.translated = some "" := by
  induction l generalizing results with
  | nil => cases hmem
  | cons j tl ih =>
      have hstep : giveUpFold (j :: tl) results
          = giveUpFold tl (setTranslated results j "") := rfl
      rw [hstep]
      by_cases hitl : i ∈ tl
      · exact ih (setTranslated results j "") hitl
          (by rw [setTranslated_length]; exact hlt)
      · have hij : i = j := by
          rcases List.mem_cons.mp hmem with h1 | h1
          · exact h1
          · exact absurd h1 hitl
        subst hij
        rw [giveUpFold_get?_notMem tl _ i hitl, setTranslated_get?_self]
        rcases List.get?_eq_some.mpr ⟨hlt, rfl⟩ with hsome
        rw [hsome]
        rfl

/-- A container whose translations are all empty is a fixed point of the
give-up write. -/
def AllEmptyTranslated (results : List TransResult) : Prop :=
  ∀ r ∈ results, r.translated = ""

lemma setTranslated_empty_fix (results : List TransResult) (i : Nat)
    (h : AllEmptyTranslated results) :
    setTranslated results i "" = results := by
  induction results generalizing i with
  | nil => rfl
  | cons r tl ih =>
      cases i with
      | zero =>
          have : r.translated = "" := h r (List.mem_cons_self r tl)
          simp [setTranslated, ← this]
      | succ i =>
          rw [setTranslated, ih i (fun x hx => h x (List.mem_cons_of_mem r hx))]

lemma giveUpFold_empty_fix (l : List Nat) (results : List TransResult)
    (h : AllEmptyTranslated results) :
    giveUpFold l results = results := by
  induction l with
  | nil => rfl
  | cons j tl ih =>
      have hstep : giveUpFold (j :: tl) results
          = giveUpFold tl (setTranslated results j "") := rfl
      rw [hstep, setTranslated_empty_fix results j h, ih]

lemma runBatches_allFail (oracle : Nat → Nat → Attempt)
    (h : ∀ b k, isNonAbortFailure (oracle b k) = true) :
    ∀ (batches : List Batch) (bi : Nat) (results : List TransResult),
      AllEmptyTranslated results →
      (runBatches oracle batches bi results).1 = .ok results := by
  intro batches
  induction batches with
  | nil => intro bi results _; rfl
  | cons b rest ih =>
      intro bi results hempty
      have hpb : processBatch b.indices (oracle bi) results
          = (.ok results, maxRetries + 1) := by
        rw [processBatch_allFail b.indices (oracle bi) results (h bi),
          giveUpFold_empty_fix _ _ hempty]
      rw [runBatches, hpb]
      exact ih (bi + 1) results hempty

/-! ## Claim theorems -/

/-- C1: for every input paragraph list (and any abort flag and any
outcomes of the `translateBatch` calls), whenever
`translateTextByParagraph` returns a result container, its length
equals the input fragment count and `result[i].original` equals
`input[i]` at every index; entries are never added or removed after
preallocation and only the `translated` field is ever mutated — so the
`original` fields of the returned container coincide pointwise with the
preallocated ones. -/
theorem translate_container_stable (config : AiConfig) (paragraphs : List String)
    (aborted : Bool) (oracle : Nat → Nat → Attempt) (r : List TransResult)
    (h : (translateTextByParagraph config paragraphs aborted oracle).1 = .ok r) :
    r.length = paragraphs.length ∧
      ∀ i, (r.get? i).map TransResult.original = paragraphs.get? i := by
  have hinit : ∀ i,
      ((paragraphs.map fun p => TransResult.mk p "").get? i).map TransResult.original
        = paragraphs.get? i := by
    intro i
    rw [List.get?_map]
    cases paragraphs.get? i <;> rfl
  have hinitlen : (paragraphs.map fun p => TransResult.mk p "").length
      = paragraphs.length := List.length_map _ _
  rw [translateTextByParagraph] at h
  by_cases hab : aborted
  · simp only [hab, if_pos, if_true] at h
    cases h
    exact ⟨hinitlen, hinit⟩
  · simp only [hab, if_neg, ite_false, Bool.false_eq_true] at h
    have hshape := sameShape_runBatches _ _ _ _ _ h
    exact ⟨hshape.1.trans hinitlen, fun i => (hshape.2 i).trans (hinit i)⟩

/-- C1 witness: a concrete two-paragraph run whose single batch attempt
succeeds. -/
theorem translate_container_stable_witness :
    [TransResult.mk "ab" "X", TransResult.mk "cd" "Y"].length = ["ab", "cd"].length ∧
      ∀ i, (([TransResult.mk "ab" "X", TransResult.mk "cd" "Y"].get? i).map
          TransResult.original) = ["ab", "cd"].get? i :=
  translate_container_stable ⟨none, none, some 2⟩ ["ab", "cd"] false
    (fun _ _ => .ret ["X", "Y"]) [TransResult.mk "ab" "X", TransResult.mk "cd" "Y"]
    rfl

/-- C2: for every fragment list and positive `maxCount`/`maxChars`, the
batch plan never exceeds `maxCount` fragments per batch, only exceeds
`maxChars` cumulative characters on a singleton (oversized) batch, and
the concatenation of the batch index lists in batch order is exactly
`0..n-1`. -/
theorem batch_plan_partition (paragraphs : List String) (maxCount maxChars : Nat)
    (hcount : 0 < maxCount) (_hchars : 0 < maxChars) :
    (∀ b ∈ makeBatches paragraphs maxCount maxChars,
        b.indices.length ≤ maxCount ∧
          (batchCharLen b ≤ maxChars ∨ b.indices.length = 1)) ∧
      (makeBatches paragraphs maxCount maxChars).flatMap Batch.indices
        = List.range paragraphs.length := by
  constructor
  · exact planAux_bounds maxCount maxChars hcount paragraphs 0 [] ⟨[], []⟩ 0
      (by intro b hb; cases hb) rfl rfl (by simp) (by simp)
  · rw [makeBatches, planAux_flatMap_indices]
    simp [List.range_eq_range']

/-- C2 witness: the plan for three two-character fragments under caps
2/100. -/
theorem batch_plan_partition_witness :
    (∀ b ∈ makeBatches ["aa", "bb", "cc"] 2 100,
        b.indices.length ≤ 2 ∧ (batchCharLen b ≤ 100 ∨ b.indices.length = 1)) ∧
      (makeBatches ["aa", "bb", "cc"] 2 100).flatMap Batch.indices = List.range 3 :=
  batch_plan_partition ["aa", "bb", "cc"] 2 100 (by decide) (by decide)

/-- C3: a batch all of whose attempts fail with non-cancellation errors
terminates after the retry ceiling in a degraded state — `processBatch`
returns normally (no exception) with every fragment of the batch set to
the empty translated string and the container length unchanged — and a
whole run of `translateTextByParagraph` whose attempts all fail this
way still completes and returns the full preallocated result
container. -/
theorem degraded_batch_completes (indices : List Nat) (oracle : Nat → Attempt)
    (results : List TransResult) (config : AiConfig) (paragraphs : List String)
    (runOracle : Nat → Nat → Attempt)
    (h1 : ∀ k, isNonAbortFailure (oracle k) = true)
    (h2 : ∀ b k, isNonAbortFailure (runOracle b k) = true) :
    (processBatch indices oracle results).1 = .ok (giveUpFold indices results) ∧
      (giveUpFold indices results).length = results.length ∧
      (∀ i ∈ indices, i < results.length →
        ((giveUpFold indices results).get? i).map TransResult.translated
          = some "") ∧
      (translateTextByParagraph config paragraphs false runOracle).1
        = .ok (paragraphs.map fun p => TransResult.mk p "") := by
  refine ⟨?_, (sameShape_giveUpFold indices results).1, ?_, ?_⟩
  · rw [processBatch_allFail indices oracle results h1]
  · intro i hmem hlt
    exact giveUpFold_get?_mem indices results i hmem hlt
  · rw [translateTextByParagraph]
    simp only [Bool.false_eq_true, ite_false, if_neg]
    refine runBatches_allFail runOracle h2 _ 0 _ ?_
    intro r hr
    rcases List.mem_map.mp hr with ⟨p, _, rfl⟩
    rfl

/-- C3 witness: a singleton batch and a one-paragraph run whose every
attempt is a transport failure. -/
theorem degraded_batch_completes_witness :
    (processBatch [0] (fun _ => .fail false) [TransResult.mk "a" "x"]).1
        = .ok (giveUpFold [0] [TransResult.mk "a" "x"]) ∧
      (giveUpFold [0] [TransResult.mk "a" "x"]).length
        = [TransResult.mk "a" "x"].length ∧
      (∀ i ∈ [0], i < [TransResult.mk "a" "x"].length →
        ((giveUpFold [0] [TransResult.mk "a" "x"]).get? i).map
            TransResult.translated = some "") ∧
      (translateTextByParagraph ⟨none, none, none⟩ ["a"] false
          (fun _ _ => .fail false)).1
        = .ok (["a"].map fun p => TransResult.mk p "") :=
  degraded_batch_completes [0] (fun _ => .fail false) [TransResult.mk "a" "x"]
    ⟨none, none, none⟩ ["a"] (fun _ _ => .fail false)
    (fun _ => rfl) (fun _ _ => rfl)

/-- C4 counterexample: with the cancellation signal set before any batch
starts, `translateTextByParagraph` makes no `translateBatch` (hence no
network) call, but it does NOT yield a cancelled outcome: it returns the
same normal `.ok` result container that a completed (fully degraded)
un-cancelled run returns, so the outcome is not distinguishable from a
completed result. -/
theorem cancelled_start_counterexample :
    translateTextByParagraph ⟨none, none, none⟩ ["hello"] true
        (fun _ _ => .fail false)
      = (.ok [TransResult.mk "hello" ""], 0) ∧
      (translateTextByParagraph ⟨none, none, none⟩ ["hello"] false
          (fun _ _ => .fail false)).1
        = .ok [TransResult.mk "hello" ""] := by
  exact ⟨rfl, rfl⟩

/-- C4 (amended): if the cancellation signal is already set before any
batch starts, `translateTextByParagraph` makes no network calls and
returns the normal preallocated result container with every
`translated` field empty (an `.ok` outcome, not a distinguishable
cancelled one). -/
theorem cancelled_start_no_calls (config : AiConfig) (paragraphs : List String)
    (oracle : Nat → Nat → Attempt) :
    translateTextByParagraph config paragraphs true oracle
      = (.ok (paragraphs.map fun p => TransResult.mk p ""), 0) := rfl

/-- C5: in the executor's admission/completion transition system, every
state reachable from the start of a run keeps the active set within the
configured concurrency limit — a batch is admitted only when fewer than
`concurrency` tasks are in flight, and a finished task removes itself
from the active set. -/
theorem concurrency_window_bound (concurrency numBatches : Nat) (s : ExecState)
    (h : ExecReachable concurrency numBatches s) :
    s.active.length ≤ concurrency := by
  induction h with
  | refl => simp [initExecState]
  | tail _hsteps hstep ih =>
      cases hstep with
      | admitNext b rest s hq hlt => simpa using hlt
      | finish b s hb =>
          exact le_trans (List.length_erase_le _ _) ih

/-- C5 witness: after admitting the first of two batches under a window
of one, the bound holds at the reached state. -/
theorem concurrency_window_bound_witness :
    ExecReachable 1 2 ⟨[1], [0], []⟩ ∧
      (ExecState.active ⟨[1], [0], []⟩).length ≤ 1 := by
  have hreach : ExecReachable 1 2 ⟨[1], [0], []⟩ := by
    have hstep : ExecStep 1 (initExecState 2) ⟨[1], [0], []⟩ :=
      ExecStep.admitNext 0 [1] (initExecState 2) (by decide) (by decide)
    exact Relation.ReflTransGen.single hstep
  exact ⟨hreach, concurrency_window_bound 1 2 _ hreach⟩

/-- C6: for every non-empty input list, `translateBatch` returns a
string array of the same length as its input; a singleton input is
answered by the single completion result unchanged; with two or more
texts, a parsed response is accepted exactly when it is an array of the
input length, and every structural validation failure (parse error,
non-array, or length mismatch) falls back to one sequential
single-fragment completion call per text — so the same-length contract
holds on every path. -/
theorem translate_batch_contract (texts : List String) (o : CompletionOracle)
    (h : texts ≠ []) :
    (translateBatch texts o).length = texts.length ∧
      (∀ t, texts = [t] → translateBatch texts o = [o.single 0 t]) ∧
      (2 ≤ texts.length →
        (∀ xs, o.parse (cleanResponse o.bulk) = some (.jarr xs) →
            xs.length = texts.length → translateBatch texts o = xs.map jsToString) ∧
        ((∀ xs, o.parse (cleanResponse o.bulk) = some (.jarr xs) →
              xs.length ≠ texts.length) →
            translateBatch texts o = texts.enum.map fun it => o.single it.1 it.2)) := by
  match texts with
  | [] => exact absurd rfl h
  | [t] =>
      refine ⟨rfl, ?_, ?_⟩
      · intro t' ht
        cases ht
        rfl
      · intro h2
        simp at h2
  | t1 :: t2 :: rest =>
      have hunfold : translateBatch (t1 :: t2 :: rest) o
          = (match o.parse (cleanResponse o.bulk) with
             | some (.jarr xs) =>
                 if xs.length = (t1 :: t2 :: rest).length then xs.map jsToString
                 else (t1 :: t2 :: rest).enum.map fun it => o.single it.1 it.2
             | _ => (t1 :: t2 :: rest).enum.map fun it => o.single it.1 it.2) := rfl
      have hfb : (translateBatch (t1 :: t2 :: rest) o = (t1 :: t2 :: rest).enum.map
            fun it => o.single it.1 it.2) ∨
          ∃ xs, o.parse (cleanResponse o.bulk) = some (.jarr xs) ∧
            xs.length = (t1 :: t2 :: rest).length ∧
            translateBatch (t1 :: t2 :: rest) o = xs.map jsToString := by
        rw [hunfold]
        cases hp : o.parse (cleanResponse o.bulk) with
        | none => exact Or.inl rfl
        | some v =>
            cases v with
            | jarr xs =>
                by_cases hlen : xs.length = (t1 :: t2 :: rest).length
                · exact Or.inr ⟨xs, rfl, hlen, by simp only [if_pos hlen, ite_true]⟩
                · exact Or.inl (by simp only [if_neg hlen, ite_false])
            | jstr s => exact Or.inl rfl
            | jnum n => exact Or.inl rfl
            | jbool b => exact Or.inl rfl
            | jnull => exact Or.inl rfl
            | jobj => exact Or.inl rfl
      refine ⟨?_, ?_, ?_⟩
      · rcases hfb with heq | ⟨xs, _, hlen, heq⟩
        · rw [heq, List.length_map, List.enum_length]
        · rw [heq, List.length_map, hlen]
      · intro t' ht
        cases ht
      · intro _
        constructor
        · intro xs hp hlen
          rw [hunfold, hp]
          simp only [if_pos hlen, ite_true]
        · intro hno
          rcases hfb with heq | ⟨ys, hp', hlen', heq⟩
          · exact heq
          · exact absurd hlen' (hno ys hp')

/-- C6 witness: two texts whose bulk response fails to parse fall back
to two sequential single calls of the right length. -/
theorem translate_batch_contract_witness :
    (translateBatch ["a", "b"] ⟨"x", fun i _ => toString i, fun _ => none⟩).length
        = (["a", "b"] : List String).length ∧
      (∀ t, (["a", "b"] : List String) = [t] →
        translateBatch ["a", "b"] ⟨"x", fun i _ => toString i, fun _ => none⟩
          = [(fun (i : Nat) (_ : String) => toString i) 0 t]) ∧
      (2 ≤ (["a", "b"] : List String).length →
        (∀ xs, (fun (_ : String) => (none : Option JsValue))
              (cleanResponse "x") = some (.jarr xs) →
            xs.length = (["a", "b"] : List String).length →
            translateBatch ["a", "b"] ⟨"x", fun i _ => toString i, fun _ => none⟩
              = xs.map jsToString) ∧
        ((∀ xs, (fun (_ : String) => (none : Option JsValue))
              (cleanResponse "x") = some (.jarr xs) →
            xs.length ≠ (["a", "b"] : List String).length) →
          translateBatch ["a", "b"] ⟨"x", fun i _ => toString i, fun _ => none⟩
            = (["a", "b"] : List String).enum.map
                fun it => (fun (i : Nat) (_ : String) => toString i) it.1 it.2)) :=
  translate_batch_contract ["a", "b"] ⟨"x", fun i _ => toString i, fun _ => none⟩
    (by decide)

/-- C7 counterexample: a returned text that matches the failure-marker
pattern but contains the substring `Abort` is NOT treated as a
retryable failed attempt: the content error thrown at line 344 embeds
the text in its message, the catch at line 360 sees `Abort` in the
message and rethrows, and `processBatch` rejects on the very first
attempt instead of retrying. -/
theorem failure_marker_abort_counterexample :
    hasFailureMarker "translation failed Abort" = true ∧
      attemptOnce [0] (.ret ["translation failed Abort"])
          [TransResult.mk "a" ""] = .abortErr ∧
      processBatch [0] (fun _ => .ret ["translation failed Abort"])
          [TransResult.mk "a" ""] = (.error (), 1) := by
  refine ⟨by decide, rfl, rfl⟩

/-- C7 (amended): a returned batch whose texts contain a failure marker
is treated as a failed attempt and nothing from it is written; it is
retryable — the `try` body yields `failure` and the retry loop proceeds
to the next attempt with the result container unchanged (one more
`translateBatch` call counted) — provided the first marker-bearing text
does not contain the substring `Abort`; otherwise the content error's
message contains `Abort` and the attempt is rethrown as a cancellation
rather than retried. -/
theorem failure_marker_retryable (indices : List Nat) (oracle : Nat → Attempt)
    (k fuel : Nat) (results : List TransResult) (ts : List String) (t : String)
    (hk : oracle k = .ret ts)
    (hfind : ts.find? hasFailureMarker = some t)
    (hab : containsAbort t = false)
    (hr : k + 1 ≤ maxRetries) :
    attemptOnce indices (.ret ts) results = .failure ∧
      processBatchLoop indices oracle k (fuel + 1) results
        = ((processBatchLoop indices oracle (k + 1) fuel results).1,
           (processBatchLoop indices oracle (k + 1) fuel results).2 + 1) := by
  have hfail : attemptOnce indices (.ret ts) results = .failure := by
    rw [attemptOnce, hfind]
    simp [hab]
  refine ⟨hfail, ?_⟩
  rw [processBatchLoop, hk, hfail]
  have : ¬ maxRetries < k + 1 := by omega
  simp [this]

/-- C7 witness: a marker-bearing, `Abort`-free response at the first
attempt of a fresh retry loop. -/
theorem failure_marker_retryable_witness :
    attemptOnce [0] (.ret ["翻译失败"]) [TransResult.mk "a" ""] = .failure ∧
      processBatchLoop [0] (fun _ => .ret ["翻译失败"]) 0 (20 + 1)
          [TransResult.mk "a" ""]
        = ((processBatchLoop [0] (fun _ => .ret ["翻译失败"]) (0 + 1) 20
              [TransResult.mk "a" ""]).1,
           (processBatchLoop [0] (fun _ => .ret ["翻译失败"]) (0 + 1) 20
              [TransResult.mk "a" ""]).2 + 1) :=
  failure_marker_retryable [0] (fun _ => .ret ["翻译失败"]) 0 20
    [TransResult.mk "a" ""] ["翻译失败"] "翻译失败" rfl (by decide) (by decide)
    (by decide)

/-! ## Cache-store lemmas -/

lemma mapGet_mapSet_self (m : List (String × AICacheEntry)) (k : String)
    (v : AICacheEntry) : mapGet (mapSet m k v) k = some v := by
  induction m with
  | nil => simp [mapSet, mapGet]
  | cons kv rest ih =>
      by_cases hk : kv.1 = k
      · simp [mapSet, mapGet, hk]
      · simp [mapSet, mapGet, hk, ih]

/-- C8 counterexample: on an initialized store, save a translation and
call `clearOldCache 0` at the same `Date.now()` millisecond — the entry
survives (`createdAt < now` is strict), so `clearOldCache(0)` does not
remove every entry from the store. -/
theorem cache_clear_counterexample :
    (clearOldCache (saveTranslation ⟨some "p", [], 0⟩ "a" "v" 5) 0 5).cacheData
      ≠ [] := by
  decide

/-- C8 (amended): on an initialized store, `saveTranslation(id, v)`
followed by `get(id)` returns an entry whose `translation` is `v`; and
`clearOldCache(0)` removes every entry created strictly before the
call's timestamp — in particular it empties the store whenever the
clock has advanced past every write. -/
theorem cache_roundtrip_and_clear (st : CacheState) (itemId v : String)
    (now clearNow : Nat) (path : String)
    (hinit : st.cacheFilePath = some path)
    (hold : ∀ kv ∈ st.cacheData, kv.2.createdAt < clearNow) :
    (∃ e, getCache (saveTranslation st itemId v now) itemId = some e ∧
        e.translation = some v) ∧
      (clearOldCache st 0 clearNow).cacheData = [] := by
  constructor
  · refine ⟨{ (mapGet st.cacheData itemId).getD ⟨itemId, none, none, none, now⟩ with
        translation := some v, createdAt := now }, ?_, rfl⟩
    rw [saveTranslation, hinit]
    simp only [getCache, saveCache, hinit]
    exact mapGet_mapSet_self _ _ _
  · rw [clearOldCache, hinit]
    simp only [saveCache]
    rw [List.filter_eq_nil_iff]
    intro kv hkv
    have h1 : (kv.2.createdAt : Int) < (clearNow : Int) := by
      exact_mod_cast hold kv hkv
    simp only [Nat.cast_zero, zero_mul, sub_zero, Bool.not_eq_true',
      decide_eq_false_iff_not, not_not, Nat.cast_ofNat]
    omega

/-- C8 witness: a concrete initialized store; the entry saved at time 5
is read back with translation `v`, and clearing at time 6 empties the
store. -/
theorem cache_roundtrip_and_clear_witness :
    (∃ e, getCache (saveTranslation ⟨some "p", [("a", ⟨"a", none, none, none, 5⟩)], 1⟩
          "b" "v" 5) "b" = some e ∧ e.translation = some "v") ∧
      (clearOldCache ⟨some "p", [("a", ⟨"a", none, none, none, 5⟩)], 1⟩ 0 6).cacheData
        = [] :=
  cache_roundtrip_and_clear ⟨some "p", [("a", ⟨"a", none, none, none, 5⟩)], 1⟩
    "b" "v" 5 6 "p" rfl (by decide)

/-- C10: before `initDB` has set the backing file path, every public
cache-store operation is a safe no-op: `getCache` returns `null`, and
the three save operations and `clearOldCache` return with the state —
in-memory map and disk-write count included — unchanged. -/
theorem uninitialized_cache_noop (st : CacheState) (id s v t : String)
    (d now : Nat) (h : st.cacheFilePath = none) :
    getCache st id = none ∧
      saveSummary st id s now = st ∧
      saveTranslation st id v now = st ∧
      saveTitleTranslation st id t now = st ∧
      clearOldCache st d now = st := by
  refine ⟨?_, ?_, ?_, ?_, ?_⟩ <;>
    simp [getCache, saveSummary, saveTranslation, saveTitleTranslation,
      clearOldCache, h]

/-- C10 witness: a concrete uninitialized store. -/
theorem uninitialized_cache_noop_witness :
    getCache ⟨none, [], 0⟩ "a" = none ∧
      saveSummary ⟨none, [], 0⟩ "a" "s" 7 = ⟨none, [], 0⟩ ∧
      saveTranslation ⟨none, [], 0⟩ "a" "v" 7 = ⟨none, [], 0⟩ ∧
      saveTitleTranslation ⟨none, [], 0⟩ "a" "t" 7 = ⟨none, [], 0⟩ ∧
      clearOldCache ⟨none, [], 0⟩ 30 7 = ⟨none, [], 0⟩ :=
  uninitialized_cache_noop ⟨none, [], 0⟩ "a" "s" "v" "t" 30 7 rfl

/-! ## Similarity and matcher lemmas -/

lemma countMatches_le_left : ∀ (a b : List Char), countMatches a b ≤ a.length
  | [], _ => by simp [countMatches]
  | _ :: _, [] => by simp [countMatches]
  | c :: as, d :: bs => by
      rw [countMatches]
      have := countMatches_le_left as bs
      by_cases h : c = d <;> simp [h] <;> omega

lemma countMatches_self : ∀ (a : List Char), countMatches a a = a.length
  | [] => by simp [countMatches]
  | c :: as => by
      rw [countMatches, countMatches_self as]
      simp [Nat.add_comm]

lemma sim_le_one (s t : String) : calculateTextSimilarity s t ≤ 1 := by
  simp only [calculateTextSimilarity]
  set a := (stripTags s).data with ha
  set b := (stripTags t).data with hb
  set len := min (min a.length b.length) 100 with hlen
  split_ifs with h0
  · norm_num
  · have hlen_pos : 0 < len := Nat.pos_of_ne_zero h0
    have hlea : len ≤ a.length :=
      le_trans (min_le_left _ _) (min_le_left _ _)
    have hcm : countMatches (a.take len) (b.take len) ≤ len :=
      le_trans (countMatches_le_left _ _) (by rw [List.length_take]; omega)
    rw [div_le_one (by exact_mod_cast hlen_pos)]
    exact_mod_cast hcm

lemma sim_nonneg (s t : String) : 0 ≤ calculateTextSimilarity s t := by
  rw [calculateTextSimilarity]
  split_ifs with h0
  · norm_num
  · positivity

/-- A text whose tag-stripped form is non-empty has self-similarity
exactly one. -/
lemma sim_self_eq_one (s : String) (h : stripTags s ≠ "") :
    calculateTextSimilarity s s = 1 := by
  have hdata : (stripTags s).data ≠ [] := by
    intro hnil
    exact h (String.ext (by simp [hnil]))
  simp only [calculateTextSimilarity]
  set a := (stripTags s).data with ha
  have hlenne : min (min a.length a.length) 100 ≠ 0 := by
    have : a.length ≠ 0 := fun h0 => hdata (List.length_eq_zero.mp h0)
    omega
  rw [if_neg hlenne]
  set len := min (min a.length a.length) 100 with hlen
  have htake : (a.take len).length = len := by
    rw [List.length_take]
    omega
  rw [countMatches_self, htake, div_self]
  exact_mod_cast hlenne

lemma contains_range_lt (k i : Nat) (h : i < k) :
    (List.range k).contains i = true := by
  rw [List.contains_eq_any_beq]
  rw [List.any_eq_true]
  exact ⟨i, List.mem_range.mpr h, by simp⟩

lemma contains_range_self (k : Nat) : (List.range k).contains k = false := by
  rw [List.contains_eq_any_beq]
  rw [List.any_eq_false]
  intro i hi
  have : i < k := List.mem_range.mp hi
  simp only [beq_iff_eq]
  omega

/-- Indices already in the used set are skipped by the candidate scan. -/
lemma foldl_bestStep_skip (texts : List String) (used : List Nat) (orig : String) :
    ∀ (l : List Nat) (acc : Option Nat × ℚ),
      (∀ i ∈ l, used.contains i = true) →
      l.foldl (bestStep texts used orig) acc = acc := by
  intro l
  induction l with
  | nil => intro acc _; rfl
  | cons i tl ih =>
      intro acc hall
      rw [List.foldl_cons, bestStep, if_pos (hall i (List.mem_cons_self i tl))]
      exact ih acc fun j hj => hall j (List.mem_cons_of_mem i hj)

/-- Once the best score is `1`, no later candidate strictly improves on
it (similarity never exceeds `1`), so the accumulator is final. -/
lemma foldl_bestStep_stuck (texts : List String) (used : List Nat) (orig : String) :
    ∀ (l : List Nat) (b : Option Nat),
      l.foldl (bestStep texts used orig) (b, 1) = (b, 1) := by
  intro l
  induction l with
  | nil => intro b; rfl
  | cons i tl ih =>
      intro b
      have hstep : bestStep texts used orig (b, 1) i = (b, 1) := by
        rw [bestStep]
        split_ifs with h1 h2
        · rfl
        · exact absurd (lt_of_lt_of_le h2 (sim_le_one _ _)) (lt_irrefl _)
        · rfl
      rw [List.foldl_cons, hstep, ih]

/-- At the identity instance, the scan over all fragment indices with
used set `0..k-1` elects fragment `k` with score `1`. -/
lemma bestCandidate_self (texts : List String) (k : Nat) (orig : String)
    (hk : k < texts.length)
    (hget : texts.getD k "" = orig)
    (hsim : calculateTextSimilarity orig orig = 1) :
    bestCandidate texts (List.range k) orig = (some k, 1) := by
  rw [bestCandidate]
  obtain ⟨m, hm⟩ : ∃ m, texts.length = (k + 1) + m :=
    ⟨texts.length - (k + 1), by omega⟩
  rw [hm, List.range_add, List.foldl_append, List.range_succ, List.foldl_append]
  rw [foldl_bestStep_skip texts (List.range k) orig (List.range k) (none, 0)
    (fun i hi => contains_range_lt k i (List.mem_range.mp hi))]
  have hhit : bestStep texts (List.range k) orig (none, 0) k = (some k, 1) := by
    rw [bestStep, contains_range_self k]
    simp only [Bool.false_eq_true, if_neg, ite_false]
    rw [hget, hsim]
    norm_num
  simp only [List.foldl_cons, List.foldl_nil]
  rw [hhit]
  exact foldl_bestStep_stuck texts (List.range k) orig _ (some k)

/-- Matching a suffix of the pairs, starting at position `k` with the
first `k` fragments already claimed by the first `k` pairs, assigns
every remaining pair to its own fragment with score `1`. -/
lemma matchGo_identity (pairs : List TransResult)
    (hne : ∀ p ∈ pairs, stripTags p.original ≠ "") :
    ∀ (rest : List TransResult) (k : Nat) (assigns : List (Nat × Nat × ℚ)),
      k + rest.length = pairs.length →
      (∀ j, rest.get? j = pairs.get? (k + j)) →
      matchGo (pairs.map TransResult.original) rest k (List.range k) assigns
        = (assigns ++ (List.range' k rest.length).map (fun i => (i, i, (1 : ℚ))),
           List.range (k + rest.length)) := by
  intro rest
  induction rest with
  | nil =>
      intro k assigns _ _
      simp [matchGo]
  | cons t rest ih =>
      intro k assigns hk hj
      have hget : pairs.get? k = some t := by
        have h0 := hj 0
        simpa using h0.symm
      have htmem : t ∈ pairs := List.get?_mem hget
      have hklt : k < pairs.length := by
        simp only [List.length_cons] at hk
        omega
      have horig : (pairs.map TransResult.original).getD k "" = t.original := by
        rw [List.getD_eq_get?, List.get?_map, hget]
        rfl
      have hsim : calculateTextSimilarity t.original t.original = 1 :=
        sim_self_eq_one _ (hne t htmem)
      have hbc : bestCandidate (pairs.map TransResult.original) (List.range k)
          t.original = (some k, 1) :=
        bestCandidate_self _ k t.original (by rw [List.length_map]; exact hklt)
          horig hsim
      rw [matchGo, hbc]
      have hthr : (35 : ℚ) / 100 ≤ 1 := by norm_num
      show (if (35 : ℚ) / 100 ≤ 1 then
          matchGo (pairs.map TransResult.original) rest (k + 1)
            (List.range k ++ [k]) (assigns ++ [(k, k, 1)])
        else matchGo (pairs.map TransResult.original) rest (k + 1)
            (List.range k) assigns) = _
      rw [if_pos hthr, ← List.range_succ]
      have hj' : ∀ j, rest.get? j = pairs.get? (k + 1 + j) := by
        intro j
        have := hj (j + 1)
        simp only [List.get?] at this
        rw [this]
        congr 1
        omega
      rw [ih (k + 1) (assigns ++ [(k, k, 1)]) (by simp only [List.length_cons] at hk ⊢; omega) hj']
      have hrange : List.range' k (rest.length + 1)
          = k :: List.range' (k + 1) rest.length := List.range'_succ k rest.length 1
      rw [List.length_cons, hrange]
      have harith : k + 1 + rest.length = k + (rest.length + 1) := by omega
      rw [harith]
      simp [List.append_assoc]

/-- C9 (amended): matching an identical fragment list back against
itself assigns every cached pair to its own fragment with similarity
`1.0`, in original order, provided every fragment's tag-stripped text
is non-empty (a fragment that strips to the empty string gets
self-similarity `0` and is never matched). -/
theorem realign_identity (pairs : List TransResult)
    (hne : ∀ p ∈ pairs, stripTags p.original ≠ "") :
    matchPairs pairs (pairs.map TransResult.original)
      = (List.range pairs.length).map fun i => (i, i, (1 : ℚ)) := by
  rw [matchPairs]
  have h := matchGo_identity pairs hne pairs 0 [] (by simp) (fun j => by simp)
  simp only [List.range_zero] at h
  rw [h]
  simp [List.range_eq_range']

/-- C9 witness: two distinct fragments matched against themselves. -/
theorem realign_identity_witness :
    matchPairs [TransResult.mk "hello" "你好", TransResult.mk "world" "世界"]
        ([TransResult.mk "hello" "你好", TransResult.mk "world" "世界"].map
          TransResult.original)
      = (List.range 2).map (fun i => (i, i, (1 : ℚ))) :=
  realign_identity [TransResult.mk "hello" "你好", TransResult.mk "world" "世界"]
    (by decide)

/-- C9 counterexample: a fragment consisting only of markup strips to
the empty string, its self-similarity is `0` (not `1.0`), and matching
the identical singleton list against itself assigns nothing — refuting
the claim that every cached pair is always matched to its own fragment
with score `1.0`. -/
theorem realign_identity_counterexample :
    matchPairs [TransResult.mk "<b></b>" "t"] ["<b></b>"] = [] ∧
      calculateTextSimilarity "<b></b>" "<b></b>" = 0 := by
  constructor
  · rfl
  · rfl

end SimpleReader
